import Mathlib

/-!
Shallow embedding of the client-side logic of the ArthaAi front-end
(`src/services/geminiService.ts` and `src/App.tsx`) together with proofs
of its specified behaviour.  Machine strings are modelled as `List Char`,
JS numbers as `ℚ`, the host JSON parser as an abstract
`List Char → Option J` parameter, and asynchronous upstream calls as a
function from the attempt index to that attempt's outcome; the delays a
run would `await` are collected in a list.
-/

namespace ArthaAi

/-- Error kinds raised by the `extractJson` helper of
`src/services/geminiService.ts`: the "Empty response from model" throw and
the "Could not extract valid JSON from the market data source." throw. -/
inductive ExtractErr where
  | emptyResponse
  | unparseable
deriving DecidableEq

/-- Error value thrown by an upstream call as inspected by `fetchWithRetry`:
an optional HTTP-like `status` field (absent on errors that have none, such
as the ones thrown by `extractJson`), plus the extraction kind when the
error originated in `extractJson`. -/
structure JsError where
  status : Option Nat
  extractKind : Option ExtractErr
deriving DecidableEq

/-- Transience test of `fetchWithRetry`:
`(error as any)?.status === 429 || (error as any)?.status >= 500`.
When `status` is absent both JS comparisons are false. -/
def isTransient (e : JsError) : Bool :=
  match e.status with
  | some s => s == 429 || decide (500 ≤ s)
  | none => false

/-- Loop body of `fetchWithRetry`, unrolled over the attempt index.  `fuel`
is the number of loop iterations left (`maxRetries - attempt`), `lastErr`
the current value of the `lastError` variable (`none` models its initial
`undefined`).  Returns the overall outcome (`Except.error none` models
`throw lastError` with `lastError` still `undefined`, possible only when
`maxRetries = 0`) together with the list of delays awaited, in order.  A
non-transient failure on attempt 0 is re-thrown at once; any other failure
is followed by a delay of `initialDelay * 2 ^ attempt` — also on the final
attempt, where the loop then ends and re-throws `lastError`. -/
def retryGo {α : Type} (fn : Nat → Except JsError α) (d : Nat) :
    Nat → Nat → Option JsError → Except (Option JsError) α × List Nat
  | _, 0, lastErr => (Except.error lastErr, [])
  | attempt, fuel + 1, _ =>
    match fn attempt with
    | Except.ok v => (Except.ok v, [])
    | Except.error e =>
      if isTransient e = false ∧ attempt = 0 then (Except.error (some e), [])
      else
        let r := retryGo fn d (attempt + 1) fuel (some e)
        (r.1, d * 2 ^ attempt :: r.2)

/-- Default `maxRetries` of `fetchWithRetry` (`maxRetries = 3`). -/
def fetchWithRetryDefaultMaxRetries : Nat := 3

/-- Default `initialDelay` of `fetchWithRetry` (`initialDelay = 1000`). -/
def fetchWithRetryDefaultInitialDelay : Nat := 1000

/-- The `fetchWithRetry` wrapper of `src/services/geminiService.ts`:
runs `fn` for at most `maxRetries` attempts starting at attempt 0. -/
def fetchWithRetry {α : Type} (fn : Nat → Except JsError α)
    (maxRetries initialDelay : Nat) : Except (Option JsError) α × List Nat :=
  retryGo fn initialDelay 0 maxRetries none

/-- The `maxRetries` argument passed by `analyzeIndianStock`
(`fetchWithRetry(executeAnalysis, 2)`). -/
def analyzeMaxRetries : Nat := 2

/-- The `maxRetries` used by `fetchRealTimePrice`
(`fetchWithRetry(executeFetch)`, i.e. the default). -/
def priceMaxRetries : Nat := fetchWithRetryDefaultMaxRetries

theorem delayList_shift (d a n : Nat) :
    (List.range (n + 1)).map (fun j => d * 2 ^ (a + j)) =
      d * 2 ^ a :: (List.range n).map (fun j => d * 2 ^ (a + 1 + j)) := by
  rw [List.range_succ_eq_map, List.map_cons, List.map_map]
  refine congrArg₂ List.cons (by rw [Nat.add_zero]) ?_
  refine List.map_congr_left ?_
  intro j _
  simp only [Function.comp_apply]
  congr 1
  congr 1
  omega

theorem retryGo_transient_run {α : Type} (fn : Nat → Except JsError α) (d : Nat)
    (es : Nat → JsError) :
    ∀ (i attempt fuel : Nat) (le : Option JsError), i < fuel →
    (∀ j, j ≤ i → fn (attempt + j) = Except.error (es (attempt + j)) ∧
        isTransient (es (attempt + j)) = true) →
    retryGo fn d attempt fuel le =
      ((retryGo fn d (attempt + i + 1) (fuel - (i + 1)) (some (es (attempt + i)))).1,
       (List.range (i + 1)).map (fun j => d * 2 ^ (attempt + j)) ++
         (retryGo fn d (attempt + i + 1) (fuel - (i + 1)) (some (es (attempt + i)))).2) := by
  intro i
  induction i with
  | zero =>
    intro attempt fuel le hfuel h
    obtain ⟨k, rfl⟩ : ∃ k, fuel = k + 1 := ⟨fuel - 1, by omega⟩
    obtain ⟨hfn, htr⟩ := h 0 (Nat.le_refl 0)
    rw [Nat.add_zero] at hfn htr
    simp only [retryGo, hfn, Nat.add_zero]
    rw [if_neg]
    · have hr : List.range 1 = [0] := by decide
      simp only [hr, List.map_cons, List.map_nil, Nat.add_zero, List.cons_append,
        List.nil_append, Nat.zero_add, Nat.add_sub_cancel]
    · intro hcontra
      rw [htr] at hcontra
      exact absurd hcontra.1 (by simp)
  | succ i ih =>
    intro attempt fuel le hfuel h
    obtain ⟨k, rfl⟩ : ∃ k, fuel = k + 1 := ⟨fuel - 1, by omega⟩
    obtain ⟨hfn, htr⟩ := h 0 (Nat.zero_le _)
    rw [Nat.add_zero] at hfn htr
    have hlt : i < k := by omega
    have h' : ∀ j, j ≤ i → fn (attempt + 1 + j) = Except.error (es (attempt + 1 + j)) ∧
        isTransient (es (attempt + 1 + j)) = true := by
      intro j hj
      have := h (j + 1) (by omega)
      rwa [show attempt + (j + 1) = attempt + 1 + j by omega] at this
    have hstep := ih (attempt + 1) k (some (es attempt)) hlt h'
    simp only [retryGo, hfn]
    rw [if_neg]
    · rw [hstep]
      have harith1 : attempt + 1 + i = attempt + (i + 1) := by omega
      have harith3 : k - (i + 1) = k + 1 - (i + 1 + 1) := by omega
      rw [harith1, harith3]
      simp only [delayList_shift, List.cons_append]
    · intro hcontra
      rw [htr] at hcontra
      exact absurd hcontra.1 (by simp)

/-- C1: within `fetchWithRetry`, a non-transient failure on the first attempt
is re-raised at once with no delay; after transient failures on every attempt
up to `i` (with attempts remaining) the run has waited `d * 2 ^ 0, …, d * 2 ^ i`
and continues by retrying at attempt `i + 1`; two rate-limit failures followed
by a success on attempt 3 return the attempt-3 result after waits
`d * 2 ^ 0` and `d * 2 ^ 1`; and when every attempt fails transiently the
last failure is re-raised after exhaustion. -/
theorem fetchWithRetry_spec :
    (∀ (α : Type) (fn : Nat → Except JsError α) (e : JsError) (m d : Nat),
        1 ≤ m → fn 0 = Except.error e → isTransient e = false →
        fetchWithRetry fn m d = (Except.error (some e), [])) ∧
    (∀ (α : Type) (fn : Nat → Except JsError α) (es : Nat → JsError) (i m d : Nat),
        (∀ j, j ≤ i → fn j = Except.error (es j) ∧ isTransient (es j) = true) →
        i + 1 < m →
        fetchWithRetry fn m d =
          ((retryGo fn d (i + 1) (m - (i + 1)) (some (es i))).1,
           (List.range (i + 1)).map (fun j => d * 2 ^ j) ++
             (retryGo fn d (i + 1) (m - (i + 1)) (some (es i))).2)) ∧
    (∀ (α : Type) (fn : Nat → Except JsError α) (e0 e1 : JsError) (v : α) (d : Nat),
        e0.status = some 429 → e1.status = some 429 →
        fn 0 = Except.error e0 → fn 1 = Except.error e1 → fn 2 = Except.ok v →
        fetchWithRetry fn 3 d = (Except.ok v, [d * 2 ^ 0, d * 2 ^ 1])) ∧
    (∀ (α : Type) (fn : Nat → Except JsError α) (es : Nat → JsError) (m d : Nat),
        1 ≤ m →
        (∀ j, j < m → fn j = Except.error (es j) ∧ isTransient (es j) = true) →
        (fetchWithRetry fn m d).1 = Except.error (some (es (m - 1)))) := by
  refine ⟨?_, ?_, ?_, ?_⟩
  · intro α fn e m d hm hfn htr
    obtain ⟨k, rfl⟩ : ∃ k, m = k + 1 := ⟨m - 1, by omega⟩
    simp [fetchWithRetry, retryGo, hfn, htr]
  · intro α fn es i m d h him
    have := retryGo_transient_run fn d es i 0 m none (by omega)
      (by intro j hj; simpa using h j hj)
    simpa [fetchWithRetry] using this
  · intro α fn e0 e1 v d h0 h1 hfn0 hfn1 hfn2
    have htr0 : isTransient e0 = true := by simp [isTransient, h0]
    have htr1 : isTransient e1 = true := by simp [isTransient, h1]
    have hes : ∀ j, j ≤ 1 →
        fn j = Except.error ((fun n => if n = 0 then e0 else e1) j) ∧
        isTransient ((fun n => if n = 0 then e0 else e1) j) = true := by
      intro j hj
      interval_cases j
      · simpa using ⟨hfn0, htr0⟩
      · simpa using ⟨hfn1, htr1⟩
    have := (retryGo_transient_run fn d (fun n => if n = 0 then e0 else e1))
      1 0 3 none (by omega) (by intro j hj; simpa using hes j hj)
    simp only [fetchWithRetry]
    rw [this]
    simp [retryGo, hfn2, List.range_succ]
  · intro α fn es m d hm h
    obtain ⟨k, rfl⟩ : ∃ k, m = k + 1 := ⟨m - 1, by omega⟩
    have := retryGo_transient_run fn d es k 0 (k + 1) none (by omega)
      (by intro j hj; simpa using h j (by omega))
    simp only [fetchWithRetry]
    rw [this]
    simp [retryGo]

/-- Concrete run of `fetchWithRetry_spec`: a call failing with status 429 on
attempts 1 and 2 and succeeding on attempt 3 returns the attempt-3 value
after delays `5 * 2 ^ 0` and `5 * 2 ^ 1`. -/
theorem fetchWithRetry_spec_witness :
    fetchWithRetry
        (fun j => if j < 2 then Except.error ⟨some 429, none⟩ else Except.ok (7 : Nat)) 3 5 =
      (Except.ok 7, [5 * 2 ^ 0, 5 * 2 ^ 1]) :=
  fetchWithRetry_spec.2.2.1 Nat _ ⟨some 429, none⟩ ⟨some 429, none⟩ 7 5
    rfl rfl (by simp) (by simp) (by simp)

/-- The `isIndianMarketOpen` check of `src/services/geminiService.ts`,
expressed over the components of the IST wall-clock time the function
computes from the system clock: `day` is `istDate.getDay()`
(0 = Sunday … 6 = Saturday), `hours` and `minutes` the IST hour and
minute.  The function returns `false` on days 0 and 6 and otherwise
compares `hours * 60 + minutes` with `9 * 60 + 15` and `15 * 60 + 30`,
both bounds inclusive. -/
def isIndianMarketOpen (day hours minutes : Nat) : Bool :=
  if day == 0 || day == 6 then false
  else
    let timeInMinutes := hours * 60 + minutes
    let openTime := 9 * 60 + 15
    let closeTime := 15 * 60 + 30
    decide (openTime ≤ timeInMinutes) && decide (timeInMinutes ≤ closeTime)

theorem isIndianMarketOpen_weekday (day hours minutes : Nat)
    (h1 : 1 ≤ day) (h5 : day ≤ 5) :
    isIndianMarketOpen day hours minutes = true ↔
      9 * 60 + 15 ≤ hours * 60 + minutes ∧ hours * 60 + minutes ≤ 15 * 60 + 30 := by
  have hd0 : day ≠ 0 := by omega
  have hd6 : day ≠ 6 := by omega
  simp [isIndianMarketOpen, hd0, hd6]

/-- C3: the market predicate returns closed on the two weekend days
(`getDay` values 0 and 6) and, on a weekday, returns closed at any IST
time outside 09:15–15:30 and open at any IST time inside that window;
the boundary instants 09:15 and 15:30 are both open. -/
theorem isIndianMarketOpen_spec :
    (∀ hours minutes : Nat, isIndianMarketOpen 0 hours minutes = false ∧
        isIndianMarketOpen 6 hours minutes = false) ∧
    (∀ day hours minutes : Nat, 1 ≤ day → day ≤ 5 → hours < 24 → minutes < 60 →
        ((hours * 60 + minutes < 9 * 60 + 15 ∨ 15 * 60 + 30 < hours * 60 + minutes) →
          isIndianMarketOpen day hours minutes = false) ∧
        (9 * 60 + 15 ≤ hours * 60 + minutes → hours * 60 + minutes ≤ 15 * 60 + 30 →
          isIndianMarketOpen day hours minutes = true)) ∧
    (∀ day : Nat, 1 ≤ day → day ≤ 5 →
        isIndianMarketOpen day 9 15 = true ∧ isIndianMarketOpen day 15 30 = true) := by
  refine ⟨?_, ?_, ?_⟩
  · intro hours minutes
    constructor <;> simp [isIndianMarketOpen]
  · intro day hours minutes h1 h5 hh hm
    constructor
    · intro hcase
      rw [← Bool.not_eq_true, isIndianMarketOpen_weekday day hours minutes h1 h5]
      omega
    · intro hlo hhi
      rw [isIndianMarketOpen_weekday day hours minutes h1 h5]
      omega
  · intro day h1 h5
    constructor <;> rw [isIndianMarketOpen_weekday day _ _ h1 h5] <;> omega

/-- Concrete runs of `isIndianMarketOpen_spec`: Wednesday 10:00 IST is open,
Wednesday 08:00 IST is closed, Sunday noon is closed, and both boundary
instants on a Wednesday are open. -/
theorem isIndianMarketOpen_spec_witness :
    isIndianMarketOpen 3 10 0 = true ∧ isIndianMarketOpen 3 8 0 = false ∧
      isIndianMarketOpen 0 12 0 = false ∧ isIndianMarketOpen 3 9 15 = true ∧
      isIndianMarketOpen 3 15 30 = true :=
  ⟨(isIndianMarketOpen_spec.2.1 3 10 0 (by decide) (by decide) (by decide)
      (by decide)).2 (by decide) (by decide),
   (isIndianMarketOpen_spec.2.1 3 8 0 (by decide) (by decide) (by decide)
      (by decide)).1 (by decide),
   (isIndianMarketOpen_spec.1 12 0).1,
   (isIndianMarketOpen_spec.2.2 3 (by decide) (by decide)).1,
   (isIndianMarketOpen_spec.2.2 3 (by decide) (by decide)).2⟩

/-- C5 fails on the code: `analyzeIndianStock` passes `maxRetries = 2`
(`fetchWithRetry(executeAnalysis, 2)`), not the default 3, and
`fetchRealTimePrice` uses the default 3, which is more, not fewer. -/
theorem retryParams_claim_false :
    ¬ (analyzeMaxRetries = 3 ∧ priceMaxRetries < analyzeMaxRetries) := by
  decide

/-- C5 amended: `fetchWithRetry` defaults to 3 attempts and base delay 1000
time units; the full-analysis call overrides `maxRetries` to 2, while the
lightweight price-only call keeps the default 3 — more attempts than the
full analysis, not fewer. -/
theorem retryParams_spec :
    fetchWithRetryDefaultMaxRetries = 3 ∧ fetchWithRetryDefaultInitialDelay = 1000 ∧
      analyzeMaxRetries = 2 ∧ priceMaxRetries = fetchWithRetryDefaultMaxRetries ∧
      analyzeMaxRetries < priceMaxRetries := by
  decide

/-- The four-valued recommendation enum `InvestmentAction` of `src/types.ts`. -/
inductive InvestmentAction where
  | buy
  | hold
  | sell
  | avoid
deriving DecidableEq

/-- A `SearchHistoryItem` of `src/types.ts`: symbol, display name,
timestamp and recommendation. -/
structure SearchHistoryItem where
  symbol : List Char
  companyName : List Char
  timestamp : Nat
  action : InvestmentAction
deriving DecidableEq

/-- History update performed by `handleSearch` in `src/App.tsx` after a
successful analysis:
`[newItem, ...history.filter(h => h.symbol !== result.symbol)].slice(0, 10)`,
where `newItem` carries `result.symbol` and a fresh timestamp. -/
def updateHistory (history : List SearchHistoryItem) (newItem : SearchHistoryItem) :
    List SearchHistoryItem :=
  (newItem :: history.filter (fun h => decide (h.symbol ≠ newItem.symbol))).take 10

/-- C7: the updated history has at most 10 entries; if the previous history
had pairwise-distinct symbols so does the updated one; the new entry (with
its fresh timestamp) sits at the front; and every entry carrying the
searched symbol is the new entry — the old entry for that symbol is gone. -/
theorem updateHistory_spec :
    ∀ (history : List SearchHistoryItem) (newItem : SearchHistoryItem),
      (updateHistory history newItem).length ≤ 10 ∧
      (history.Pairwise (fun a b => a.symbol ≠ b.symbol) →
        (updateHistory history newItem).Pairwise (fun a b => a.symbol ≠ b.symbol)) ∧
      (updateHistory history newItem).head? = some newItem ∧
      (∀ x ∈ updateHistory history newItem, x.symbol = newItem.symbol → x = newItem) := by
  intro history newItem
  refine ⟨?_, ?_, ?_, ?_⟩
  · exact List.length_take_le 10 _
  · intro hp
    refine List.Pairwise.sublist (List.take_sublist 10 _) ?_
    refine List.Pairwise.cons ?_ (List.Pairwise.filter _ hp)
    intro b hb
    have := (List.mem_filter.mp hb).2
    simp only [decide_eq_true_eq] at this
    exact Ne.symm this
  · rfl
  · intro x hx hsym
    have hx' : x ∈ newItem :: history.filter (fun h => decide (h.symbol ≠ newItem.symbol)) :=
      List.mem_of_mem_take hx
    rcases List.mem_cons.mp hx' with h | h
    · exact h
    · have := (List.mem_filter.mp h).2
      simp only [decide_eq_true_eq] at this
      exact absurd hsym this

/-- Concrete run of `updateHistory_spec`: re-searching the symbol of the
single existing entry keeps the list deduplicated and puts the fresh entry
in front. -/
theorem updateHistory_spec_witness :
    (updateHistory [⟨"TCS".toList, "Tata".toList, 5, InvestmentAction.buy⟩]
        ⟨"TCS".toList, "Tata".toList, 9, InvestmentAction.sell⟩).Pairwise
        (fun a b => a.symbol ≠ b.symbol) ∧
      (updateHistory [⟨"TCS".toList, "Tata".toList, 5, InvestmentAction.buy⟩]
          ⟨"TCS".toList, "Tata".toList, 9, InvestmentAction.sell⟩).head? =
        some ⟨"TCS".toList, "Tata".toList, 9, InvestmentAction.sell⟩ :=
  ⟨(updateHistory_spec _ _).2.1 (by decide), (updateHistory_spec _ _).2.2.1⟩

/-- A JS value as it can arrive in a numeric field of the parsed payload:
a number, a string, or anything else (`undefined`, `null`, an object, …). -/
inductive JsVal where
  | num (q : ℚ)
  | str (s : List Char)
  | other

/-- Character class kept by `replace(/[^\d.]/g, '')`: decimal digits and
the decimal point. -/
def keepNumeric (c : Char) : Bool := c.isDigit || c == '.'

/-- Numeric value of a list of decimal digit characters, most significant
first. -/
def digitsVal (s : List Char) : Nat :=
  List.foldl (fun n c => 10 * n + (c.toNat - 48)) 0 s

/-- Model of the host `parseFloat` restricted to strings of digits and
dots — the only strings `cleanNumericString` feeds it.  The longest prefix
of the shape `digits`, `digits . digits*` or `. digits+` is read; `none`
models a `NaN` result (no digit in that prefix), and trailing characters
are ignored, as `parseFloat` does. -/
def parseFloatDD (s : List Char) : Option ℚ :=
  let intPart := s.takeWhile Char.isDigit
  let rest := s.dropWhile Char.isDigit
  match rest with
  | '.' :: rest2 =>
    let fracPart := rest2.takeWhile Char.isDigit
    if intPart = [] ∧ fracPart = [] then none
    else some ((digitsVal intPart : ℚ) + (digitsVal fracPart : ℚ) / (10 : ℚ) ^ fracPart.length)
  | _ => if intPart = [] then none else some (digitsVal intPart)

/-- The `cleanNumericString` helper of `src/services/geminiService.ts`:
numbers pass through, non-strings map to 0, and a string is cleaned with
`replace(/[^\d.]/g, '')` and given to `parseFloat`, a `NaN` result being
mapped to 0. -/
def cleanNumericString (v : JsVal) : ℚ :=
  match v with
  | .num q => q
  | .other => 0
  | .str s =>
    match parseFloatDD (s.filter keepNumeric) with
    | some q => q
    | none => 0

theorem parseFloatDD_nonneg (s : List Char) (q : ℚ) (h : parseFloatDD s = some q) :
    0 ≤ q := by
  simp only [parseFloatDD] at h
  split at h
  · split at h
    · exact absurd h (by simp)
    · injection h with h'
      rw [← h']
      positivity
  · split at h
    · exact absurd h (by simp)
    · injection h with h'
      rw [← h']
      positivity

/-- C8: `cleanNumericString` on a string keeps only digits and the decimal
point and parses the remainder, returning the parsed value when parsing
succeeds and 0 when it fails; in particular `"₹1,234.50"` yields `1234.5`
and the empty string or non-numeric garbage yields 0. -/
theorem cleanNumericString_spec :
    cleanNumericString (JsVal.str "₹1,234.50".toList) = 1234.5 ∧
      cleanNumericString (JsVal.str "".toList) = 0 ∧
      cleanNumericString (JsVal.str "N/A garbage!".toList) = 0 ∧
      (∀ s : List Char, parseFloatDD (s.filter keepNumeric) = none →
        cleanNumericString (JsVal.str s) = 0) ∧
      (∀ (s : List Char) (q : ℚ), parseFloatDD (s.filter keepNumeric) = some q →
        cleanNumericString (JsVal.str s) = q) := by
  refine ⟨?_, rfl, rfl, ?_, ?_⟩
  · have h : cleanNumericString (JsVal.str "₹1,234.50".toList) =
        (digitsVal "1234".toList : ℚ) + (digitsVal "50".toList : ℚ) / (10 : ℚ) ^ 2 := rfl
    rw [h, show digitsVal "1234".toList = 1234 from by decide,
      show digitsVal "50".toList = 50 from by decide]
    norm_num
  · intro s h
    simp [cleanNumericString, h]
  · intro s q h
    simp [cleanNumericString, h]

/-- Concrete runs of `cleanNumericString_spec`: a cleaned string with no
digits parses to nothing and is coerced to 0, and `"12.5%"` cleans to
`"12.5"` and is coerced to `25 / 2`. -/
theorem cleanNumericString_spec_witness :
    cleanNumericString (JsVal.str "xyz".toList) = 0 ∧
      cleanNumericString (JsVal.str "12.5%".toList) = (12 : ℚ) + 5 / 10 ^ 1 :=
  ⟨cleanNumericString_spec.2.2.2.1 "xyz".toList rfl,
   cleanNumericString_spec.2.2.2.2 "12.5%".toList ((12 : ℚ) + 5 / 10 ^ 1) rfl⟩

/-- C10: on string input the coercion is non-negative — the cleaning step
drops a minus sign with every other non-digit character, so `"-1.5"` is
coerced to `1.5` — while a value already arriving as a number passes
through unchanged and can stay negative. -/
theorem cleanNumericString_nonneg :
    (∀ s : List Char, 0 ≤ cleanNumericString (JsVal.str s)) ∧
      cleanNumericString (JsVal.str "-1.5".toList) = 1.5 ∧
      (∀ q : ℚ, cleanNumericString (JsVal.num q) = q) ∧
      cleanNumericString (JsVal.num (-1.5)) = -1.5 := by
  refine ⟨?_, ?_, fun q => rfl, rfl⟩
  · intro s
    simp only [cleanNumericString]
    split
    · next q h => exact parseFloatDD_nonneg _ q h
    · exact le_refl 0
  · have h : cleanNumericString (JsVal.str "-1.5".toList) =
        (digitsVal "1".toList : ℚ) + (digitsVal "5".toList : ℚ) / (10 : ℚ) ^ 1 := rfl
    rw [h, show digitsVal "1".toList = 1 from by decide,
      show digitsVal "5".toList = 5 from by decide]
    norm_num

/-- The backtick character of the markdown fences. -/
def btick : Char := Char.ofNat 96

/-- The opening-brace character searched for by `indexOf`. -/
def obrace : Char := Char.ofNat 123

/-- The closing-brace character searched for by `lastIndexOf`. -/
def cbrace : Char := Char.ofNat 125

/-- Newline character. -/
def nlChar : Char := Char.ofNat 10

/-- Whether the first list is a leading segment of the second, as the
regex engine tests a literal pattern at the current position. -/
def listStartsWith : List Char → List Char → Bool
  | [], _ => true
  | _ :: _, [] => false
  | p :: ps, c :: cs => p == c && listStartsWith ps cs

/-- Fuelled scan of `text.replace(/pat/g, '')` for the literal nonempty
pattern `p :: ps`: the text is scanned left to right, each match is
deleted, and scanning resumes after the match, never inside it.  Each
step consumes at least one character, so fuel equal to the length of the
scanned list makes the fuel-out case unreachable. -/
def stripAllFuel (p : Char) (ps : List Char) : Nat → List Char → List Char
  | _, [] => []
  | 0, c :: rest => c :: rest
  | fuel + 1, c :: rest =>
    if listStartsWith (p :: ps) (c :: rest) then stripAllFuel p ps fuel (rest.drop ps.length)
    else c :: stripAllFuel p ps fuel rest

/-- Global deletion of a literal pattern, as in `text.replace(/pat/g, '')`.
The patterns occurring in the source are nonempty; an empty pattern is
mapped to the identity. -/
def stripAll (pat s : List Char) : List Char :=
  match pat with
  | [] => s
  | p :: ps => stripAllFuel p ps s.length s

/-- The JS whitespace characters removed by `trim` that can occur in the
texts handled here: space, tab, line feed, carriage return, vertical tab
and form feed. -/
def isJsWs (c : Char) : Bool :=
  c == ' ' || c == Char.ofNat 9 || c == Char.ofNat 10 || c == Char.ofNat 13 ||
    c == Char.ofNat 11 || c == Char.ofNat 12

/-- The `trim()` call: whitespace is removed from both ends. -/
def jsTrim (s : List Char) : List Char :=
  ((s.dropWhile isJsWs).reverse.dropWhile isJsWs).reverse

/-- Index of the first occurrence of `c`, as `indexOf` (with `none` for
the JS result `-1`). -/
def firstIdx (c : Char) : List Char → Option Nat
  | [] => none
  | a :: rest => if a == c then some 0 else (firstIdx c rest).map (fun i => i + 1)

/-- Index of the last occurrence of `c`, as `lastIndexOf` (with `none`
for the JS result `-1`). -/
def lastIdx (c : Char) (s : List Char) : Option Nat :=
  (firstIdx c s.reverse).map (fun i => s.length - 1 - i)

/-- The literal pattern of `replace(/```json/g, '')`. -/
def fenceJsonPat : List Char := btick :: btick :: btick :: 'j' :: 's' :: 'o' :: 'n' :: []

/-- The literal pattern of `replace(/```/g, '')`. -/
def fencePat : List Char := btick :: btick :: btick :: []

/-- The cleaning step of `extractJson`:
`text.replace(/```json/g, '').replace(/```/g, '').trim()`. -/
def cleanedOf (text : List Char) : List Char :=
  jsTrim (stripAll fencePat (stripAll fenceJsonPat text))

/-- The `extractJson` helper of `src/services/geminiService.ts`,
parameterised by the host JSON parser `parse` (`JSON.parse`, returning
`some` on success and `none` when it throws).  An empty input raises the
empty-response error; otherwise the cleaned text is parsed directly, and
on failure the substring from the first `{` to the last `}` (inclusive,
and only when the latter lies strictly after the former) is parsed, any
remaining failure raising the unparseable-payload error. -/
def extractJson {J : Type} (parse : List Char → Option J) (text : List Char) :
    Except ExtractErr J :=
  if text = [] then Except.error ExtractErr.emptyResponse
  else
    let cleaned := cleanedOf text
    match parse cleaned with
    | some v => Except.ok v
    | none =>
      match firstIdx obrace cleaned, lastIdx cbrace cleaned with
      | some f, some l =>
        if f < l then
          match parse ((cleaned.drop f).take (l + 1 - f)) with
          | some v => Except.ok v
          | none => Except.error ExtractErr.unparseable
        else Except.error ExtractErr.unparseable
      | _, _ => Except.error ExtractErr.unparseable

/-- A payload wrapped in fenced markdown code-block markers:
the text `"```json\n" ++ payload ++ "\n```"`. -/
def fencedOf (payload : List Char) : List Char :=
  fenceJsonPat ++ (nlChar :: (payload ++ (nlChar :: fencePat)))

theorem listStartsWith_append (x t : List Char) : listStartsWith x (x ++ t) = true := by
  induction x with
  | nil => rfl
  | cons a x ih => simp [listStartsWith, ih]

theorem stripAllFuel_match (p : Char) (ps t : List Char) (f : Nat) :
    stripAllFuel p ps (f + 1) ((p :: ps) ++ t) = stripAllFuel p ps f t := by
  have h := listStartsWith_append (p :: ps) t
  rw [List.cons_append] at h
  rw [List.cons_append]
  simp only [stripAllFuel]
  rw [if_pos h, List.drop_left]

theorem stripAllFuel_skip (p : Char) (ps : List Char) :
    ∀ (s t : List Char) (f : Nat), (∀ c ∈ s, c ≠ p) →
    stripAllFuel p ps (s.length + f) (s ++ t) = s ++ stripAllFuel p ps f t := by
  intro s
  induction s with
  | nil =>
    intro t f _
    simp
  | cons c s' ih =>
    intro t f hc
    have hcp : c ≠ p := hc c (List.mem_cons_self c s')
    have hpc : (p == c) = false := by
      rw [beq_eq_false_iff_ne]
      exact fun h => hcp h.symm
    have hlen : (c :: s').length + f = (s'.length + f) + 1 := by
      simp only [List.length_cons]
      omega
    rw [hlen, List.cons_append]
    simp only [stripAllFuel, listStartsWith, hpc, Bool.false_and, Bool.false_eq_true,
      if_false, List.cons_append]
    exact congrArg (c :: ·) (ih t f (fun d hd => hc d (List.mem_cons_of_mem c hd)))

theorem stripAll_fenceJson (payload : List Char) (hnb : ∀ c ∈ payload, c ≠ btick) :
    stripAll fenceJsonPat (fencedOf payload) = nlChar :: (payload ++ (nlChar :: fencePat)) := by
  have hlen : (fencedOf payload).length = (payload.length + 11) + 1 := by
    simp [fencedOf, fenceJsonPat, fencePat]
  show stripAllFuel btick (btick :: btick :: 'j' :: 's' :: 'o' :: 'n' :: [])
      (fencedOf payload).length (fencedOf payload) = _
  rw [hlen]
  show stripAllFuel btick _ _ (fenceJsonPat ++ _) = _
  rw [show fenceJsonPat = btick :: (btick :: btick :: 'j' :: 's' :: 'o' :: 'n' :: []) from rfl,
    stripAllFuel_match]
  have hsk := stripAllFuel_skip btick (btick :: btick :: 'j' :: 's' :: 'o' :: 'n' :: [])
    (nlChar :: payload) (nlChar :: fencePat) 10
    (by
      intro c hcm
      rcases List.mem_cons.mp hcm with h | h
      · rw [h]; decide
      · exact hnb c h)
  have hlen2 : payload.length + 11 = (nlChar :: payload).length + 10 := by
    simp
  rw [hlen2, show nlChar :: (payload ++ (nlChar :: fencePat)) =
      (nlChar :: payload) ++ (nlChar :: fencePat) from by simp, hsk]
  rw [show stripAllFuel btick (btick :: btick :: 'j' :: 's' :: 'o' :: 'n' :: []) 10
      (nlChar :: fencePat) = nlChar :: fencePat from by decide]

theorem stripAll_fence (payload : List Char) (hnb : ∀ c ∈ payload, c ≠ btick) :
    stripAll fencePat (nlChar :: (payload ++ (nlChar :: fencePat))) =
      nlChar :: (payload ++ [nlChar]) := by
  show stripAllFuel btick (btick :: btick :: [])
      (nlChar :: (payload ++ (nlChar :: fencePat))).length _ = _
  have hshape : nlChar :: (payload ++ (nlChar :: fencePat)) =
      (nlChar :: (payload ++ [nlChar])) ++ fencePat := by
    simp [fencePat]
  have hlen : (nlChar :: (payload ++ (nlChar :: fencePat))).length =
      (nlChar :: (payload ++ [nlChar])).length + 3 := by
    simp [fencePat]
  rw [hlen, hshape]
  have hsk := stripAllFuel_skip btick (btick :: btick :: [])
    (nlChar :: (payload ++ [nlChar])) fencePat 3
    (by
      intro c hcm
      rcases List.mem_cons.mp hcm with h | h
      · rw [h]; decide
      · rcases List.mem_append.mp h with h2 | h2
        · exact hnb c h2
        · rw [List.mem_singleton.mp h2]; decide)
  rw [hsk, show stripAllFuel btick (btick :: btick :: []) 3 fencePat = [] from by decide,
    List.append_nil]

theorem jsTrim_wrap (payload : List Char) (hne : payload ≠ [])
    (hhead : ∀ c, payload.head? = some c → isJsWs c = false)
    (hlast : ∀ c, payload.getLast? = some c → isJsWs c = false) :
    jsTrim (nlChar :: (payload ++ [nlChar])) = payload := by
  have hnl : isJsWs nlChar = true := by decide
  obtain ⟨c0, p', rfl⟩ : ∃ c0 p', payload = c0 :: p' := by
    cases payload with
    | nil => exact absurd rfl hne
    | cons a b => exact ⟨a, b, rfl⟩
  have hc0 : isJsWs c0 = false := hhead c0 rfl
  have h1 : List.dropWhile isJsWs (nlChar :: ((c0 :: p') ++ [nlChar])) =
      (c0 :: p') ++ [nlChar] := by
    rw [List.dropWhile_cons, if_pos hnl, List.cons_append, List.dropWhile_cons, hc0]
    simp
  have hrev : ((c0 :: p') ++ [nlChar]).reverse = nlChar :: (c0 :: p').reverse := by
    rw [List.reverse_append]
    rfl
  have h2 : List.dropWhile isJsWs ((c0 :: p').reverse) = (c0 :: p').reverse := by
    rcases hq : (c0 :: p').reverse with _ | ⟨a, r⟩
    · simp at hq
    · have ha : isJsWs a = false := by
        apply hlast
        rw [List.getLast?_eq_head?_reverse, hq]
        rfl
      rw [List.dropWhile_cons, ha]
      simp
  unfold jsTrim
  rw [h1, hrev, List.dropWhile_cons, if_pos hnl, h2, List.reverse_reverse]

theorem cleanedOf_fenced (payload : List Char) (hne : payload ≠ [])
    (hnb : ∀ c ∈ payload, c ≠ btick)
    (hhead : ∀ c, payload.head? = some c → isJsWs c = false)
    (hlast : ∀ c, payload.getLast? = some c → isJsWs c = false) :
    cleanedOf (fencedOf payload) = payload := by
  unfold cleanedOf
  rw [stripAll_fenceJson payload hnb, stripAll_fence payload hnb,
    jsTrim_wrap payload hne hhead hlast]

/-- Concrete stand-in for the host JSON parser in the closed runs below:
it accepts exactly the two-character text of the empty JSON object, which
`JSON.parse` also accepts. -/
def toyParse : List Char → Option Unit :=
  fun s => if s = obrace :: cbrace :: [] then some () else none

/-- C2: on nonempty text whose cleaned form fails the direct parse,
extraction returns the parse of the substring from the first opening brace
to the last closing brace inclusive whenever that substring parses; and
when no recoverable object boundaries exist (no opening brace, no closing
brace, or the last closing brace not strictly after the first opening
brace) or the sliced substring also fails to parse, extraction fails with
the unparseable-payload error. -/
theorem extractJson_fallback_spec :
    ∀ (J : Type) (parse : List Char → Option J) (text : List Char),
      text ≠ [] → parse (cleanedOf text) = none →
      ((∀ (f l : Nat) (v : J),
          firstIdx obrace (cleanedOf text) = some f →
          lastIdx cbrace (cleanedOf text) = some l → f < l →
          parse (((cleanedOf text).drop f).take (l + 1 - f)) = some v →
          extractJson parse text = Except.ok v) ∧
        ((firstIdx obrace (cleanedOf text) = none ∨
            lastIdx cbrace (cleanedOf text) = none ∨
            (∀ f l, firstIdx obrace (cleanedOf text) = some f →
              lastIdx cbrace (cleanedOf text) = some l → ¬ f < l) ∨
            (∀ f l, firstIdx obrace (cleanedOf text) = some f →
              lastIdx cbrace (cleanedOf text) = some l →
              parse (((cleanedOf text).drop f).take (l + 1 - f)) = none)) →
          extractJson parse text = Except.error ExtractErr.unparseable)) := by
  intro J parse text hne hdirect
  constructor
  · intro f l v hf hl hfl hp
    simp [extractJson, hne, hdirect, hf, hl, hfl, hp]
  · intro hcase
    rcases hfo : firstIdx obrace (cleanedOf text) with _ | f
    · simp [extractJson, hne, hdirect, hfo]
    · rcases hlo : lastIdx cbrace (cleanedOf text) with _ | l
      · simp [extractJson, hne, hdirect, hfo, hlo]
      · rcases hcase with h | h | h | h
        · rw [hfo] at h
          exact absurd h (by simp)
        · rw [hlo] at h
          exact absurd h (by simp)
        · have hnl := h f l hfo hlo
          simp [extractJson, hne, hdirect, hfo, hlo, hnl]
        · have hpn := h f l hfo hlo
          by_cases hfl : f < l
          · simp [extractJson, hne, hdirect, hfo, hlo, hfl, hpn]
          · simp [extractJson, hne, hdirect, hfo, hlo, hfl]

/-- Concrete run of `extractJson_fallback_spec`: the empty object wrapped
in prose is recovered by the brace-slicing fallback. -/
theorem extractJson_fallback_spec_witness :
    extractJson toyParse ('x' :: 'x' :: obrace :: cbrace :: 'y' :: 'y' :: []) =
      Except.ok () :=
  (extractJson_fallback_spec Unit toyParse
      ('x' :: 'x' :: obrace :: cbrace :: 'y' :: 'y' :: []) (by decide) (by decide)).1
    2 3 () (by decide) (by decide) (by decide) (by decide)

/-- C9: extraction of a fence-free, trimmed payload wrapped in fenced
markdown code-block markers returns exactly the value the parser gives on
the unwrapped payload. -/
theorem extractJson_fenced_spec :
    ∀ (J : Type) (parse : List Char → Option J) (payload : List Char) (v : J),
      payload ≠ [] → (∀ c ∈ payload, c ≠ btick) →
      (∀ c, payload.head? = some c → isJsWs c = false) →
      (∀ c, payload.getLast? = some c → isJsWs c = false) →
      parse payload = some v →
      extractJson parse (fencedOf payload) = Except.ok v := by
  intro J parse payload v hne hnb hhead hlast hp
  have hclean := cleanedOf_fenced payload hne hnb hhead hlast
  have hfne : fencedOf payload ≠ [] := by simp [fencedOf, fenceJsonPat]
  simp [extractJson, hfne, hclean, hp]

/-- Concrete run of `extractJson_fenced_spec`: the fenced empty object
parses to the same value as the bare empty object. -/
theorem extractJson_fenced_spec_witness :
    extractJson toyParse (fencedOf (obrace :: cbrace :: [])) = Except.ok () :=
  extractJson_fenced_spec Unit toyParse (obrace :: cbrace :: []) ()
    (by decide) (by decide) (fun c h => by cases h; decide)
    (fun c h => by cases h; decide) (by decide)

/-- The literal `'{}'` used as fallback text in `analyzeIndianStock`
(`extractJson(response.text || '{}')`). -/
def emptyObjText : List Char := obrace :: cbrace :: []

/-- The literal `'{"price": 0, "change": 0}'` used as fallback text in
`fetchRealTimePrice` (`extractJson(response.text || '…')`). -/
def priceFallbackText : List Char :=
  obrace :: '\"' :: 'p' :: 'r' :: 'i' :: 'c' :: 'e' :: '\"' :: ':' :: ' ' :: '0' :: ',' ::
    ' ' :: '\"' :: 'c' :: 'h' :: 'a' :: 'n' :: 'g' :: 'e' :: '\"' :: ':' :: ' ' :: '0' ::
    cbrace :: []

/-- The error thrown by `extractJson` as `fetchWithRetry` sees it: a plain
`Error` carrying no `status` field. -/
def extractErrObj (k : ExtractErr) : JsError := ⟨none, some k⟩

/-- One attempt of `analyzeIndianStock`'s `executeAnalysis`: the upstream
call either throws (its error passes through) or yields a response text,
possibly empty; `extractJson` is applied to `response.text || '{}'` and
its error — which carries no status — is thrown.  The analysis value is
the parsed payload; the subsequent spread, price coercion and source
attachment transform that abstract value and do not affect the
success/failure behaviour reasoned about here. -/
def executeAnalysis {J : Type} (parse : List Char → Option J)
    (resp : Except JsError (List Char)) : Except JsError J :=
  match resp with
  | Except.error e => Except.error e
  | Except.ok text =>
    match extractJson parse (if text = [] then emptyObjText else text) with
    | Except.ok v => Except.ok v
    | Except.error k => Except.error (extractErrObj k)

/-- The `analyzeIndianStock` orchestration of `src/services/geminiService.ts`:
`fetchWithRetry(executeAnalysis, 2)` with the default initial delay, the
per-attempt upstream outcome given by `upstream`. -/
def analyzeIndianStock {J : Type} (parse : List Char → Option J)
    (upstream : Nat → Except JsError (List Char)) :
    Except (Option JsError) J × List Nat :=
  fetchWithRetry (fun j => executeAnalysis parse (upstream j)) analyzeMaxRetries
    fetchWithRetryDefaultInitialDelay

/-- C4 fails on the code: when the upstream returns no text,
`analyzeIndianStock` substitutes the literal `'{}'`
(`response.text || '{}'`), which parses, so the call succeeds instead of
failing with an empty-response error. -/
theorem analyzeEmptyText_claim_false :
    (analyzeIndianStock toyParse (fun _ => Except.ok [])).1 = Except.ok () := rfl

/-- C4 amended: when the upstream returns no text on the first attempt the
text defaults to `'{}'`, so the analysis returns the parse of the empty
object rather than an empty-response error; and when extraction of a
returned nonempty text fails after all its fallbacks, the
unparseable-payload error — carrying no status, hence non-transient — is
re-raised to the caller at once. -/
theorem analyzeIndianStock_spec :
    (∀ (J : Type) (parse : List Char → Option J)
        (upstream : Nat → Except JsError (List Char)) (v : J),
        upstream 0 = Except.ok [] → parse emptyObjText = some v →
        analyzeIndianStock parse upstream = (Except.ok v, [])) ∧
    (∀ (J : Type) (parse : List Char → Option J)
        (upstream : Nat → Except JsError (List Char)) (t : List Char),
        upstream 0 = Except.ok t → t ≠ [] →
        extractJson parse t = Except.error ExtractErr.unparseable →
        analyzeIndianStock parse upstream =
          (Except.error (some (extractErrObj ExtractErr.unparseable)), [])) := by
  constructor
  · intro J parse upstream v hup hp
    have hone : emptyObjText ≠ [] := by decide
    have hco : cleanedOf emptyObjText = emptyObjText := by decide
    have h0 : executeAnalysis parse (upstream 0) = Except.ok v := by
      rw [hup]
      simp [executeAnalysis, extractJson, hone, hco, hp]
    simp [analyzeIndianStock, fetchWithRetry, show analyzeMaxRetries = 1 + 1 from rfl,
      retryGo, h0]
  · intro J parse upstream t hup hne hex
    have h0 : executeAnalysis parse (upstream 0) =
        Except.error (extractErrObj ExtractErr.unparseable) := by
      rw [hup]
      simp [executeAnalysis, hne, hex]
    simp [analyzeIndianStock, fetchWithRetry, show analyzeMaxRetries = 1 + 1 from rfl,
      retryGo, h0, isTransient, extractErrObj]

/-- Concrete run of `analyzeIndianStock_spec`: a nonempty response with no
braces fails extraction and the unparseable error is raised to the caller
with no retry. -/
theorem analyzeIndianStock_spec_witness :
    analyzeIndianStock toyParse (fun _ => Except.ok ('j' :: 'u' :: 'n' :: 'k' :: [])) =
      (Except.error (some (extractErrObj ExtractErr.unparseable)), []) :=
  analyzeIndianStock_spec.2 Unit toyParse _ ('j' :: 'u' :: 'n' :: 'k' :: [])
    rfl (by decide) rfl

/-- One attempt of `fetchRealTimePrice`'s `executeFetch`: the upstream call
either throws or yields a response text; `extractJson` is applied to
`response.text || '{"price": 0, "change": 0}'` and, on success, the
`price` and `change` fields — accessed through the abstract `getPrice` and
`getChange`, since the payload shape is untyped — are coerced with
`cleanNumericString`. -/
def executeFetch {J : Type} (parse : List Char → Option J)
    (getPrice getChange : J → JsVal) (resp : Except JsError (List Char)) :
    Except JsError (ℚ × ℚ) :=
  match resp with
  | Except.error e => Except.error e
  | Except.ok text =>
    match extractJson parse (if text = [] then priceFallbackText else text) with
    | Except.ok data =>
      Except.ok (cleanNumericString (getPrice data), cleanNumericString (getChange data))
    | Except.error k => Except.error (extractErrObj k)

/-- The `fetchRealTimePrice` orchestration of
`src/services/geminiService.ts`: the retry wrapper with its default
parameters around `executeFetch`, inside
`try … catch (e) { return { price: 0, change: 0 } }`. -/
def fetchRealTimePrice {J : Type} (parse : List Char → Option J)
    (getPrice getChange : J → JsVal) (upstream : Nat → Except JsError (List Char)) :
    ℚ × ℚ :=
  match (fetchWithRetry (fun j => executeFetch parse getPrice getChange (upstream j))
      priceMaxRetries fetchWithRetryDefaultInitialDelay).1 with
  | Except.ok pair => pair
  | Except.error _ => (0, 0)

/-- C6: whenever the retried fetch ends in any failure — exhausted retries
and extraction failures included — the price poll returns the pair
`(0, 0)`; and it never propagates an error: every run returns either the
fetched pair or `(0, 0)`. -/
theorem fetchRealTimePrice_spec :
    ∀ (J : Type) (parse : List Char → Option J) (getPrice getChange : J → JsVal)
      (upstream : Nat → Except JsError (List Char)),
      (∀ e, (fetchWithRetry (fun j => executeFetch parse getPrice getChange (upstream j))
            priceMaxRetries fetchWithRetryDefaultInitialDelay).1 = Except.error e →
          fetchRealTimePrice parse getPrice getChange upstream = (0, 0)) ∧
      (∀ pair, (fetchWithRetry (fun j => executeFetch parse getPrice getChange (upstream j))
            priceMaxRetries fetchWithRetryDefaultInitialDelay).1 = Except.ok pair →
          fetchRealTimePrice parse getPrice getChange upstream = pair) := by
  intro J parse getPrice getChange upstream
  constructor
  · intro e he
    simp [fetchRealTimePrice, he]
  · intro pair hp
    simp [fetchRealTimePrice, hp]

/-- Concrete run of `fetchRealTimePrice_spec`: a non-transient upstream
failure (status 404) on the first attempt ends the retried fetch with an
error and the poll degrades to `(0, 0)`. -/
theorem fetchRealTimePrice_spec_witness :
    fetchRealTimePrice toyParse (fun _ => JsVal.other) (fun _ => JsVal.other)
      (fun _ => Except.error ⟨some 404, none⟩) = (0, 0) :=
  (fetchRealTimePrice_spec Unit toyParse (fun _ => JsVal.other) (fun _ => JsVal.other)
      (fun _ => Except.error ⟨some 404, none⟩)).1 (some ⟨some 404, none⟩) rfl

end ArthaAi
